import Mathlib

/-!
Shallow embedding of the `vemcap` crate (`src/lib.rs`): an adaptive-dispatch
layer that applies a per-element transform either sequentially or through the
rayon parallel-execution engine, depending on collection length.

Owned Rust vectors and mutable slices are embedded as `List`; the caller's
target container `R` of `threaded_map` is fixed to `List` of the output type
(the canonical `FromIterator`/`FromParallelIterator` instance).  The rayon
engine itself is not part of the repository; where its behaviour matters it is
modelled from the specification's description of the engine contract
(results in input-correspondent order, each element visited once), and in
addition as an operational scheduling model (`parRun`, `parRunMut`) in which
worker threads process the index set in an arbitrary order (an arbitrary
permutation of the index range), writing each result into the slot of its
input position.  Rust panics of the caller-supplied function are embedded as
`Except` values, the standard shallow embedding of fallible code.
-/

namespace Vemcap

/-- Embeds `pub const THRESHOLD: usize = 64` from `src/lib.rs`: after reaching
this threshold computations are parallelized. -/
def THRESHOLD : Nat := 64

/-- Writing to a slot of a buffer: `setElem l i a` replaces the element at
index `i` with `a`, leaving the list unchanged when `i` is out of range.
Used by the operational model of the parallel engine to deposit a result at
its input-corresponding position. -/
def setElem {α : Type u} : List α → Nat → α → List α
  | [], _, _ => []
  | _ :: xs, 0, a => a :: xs
  | x :: xs, n + 1, a => x :: setElem xs n a

/-- One scheduling step of the parallel map engine: the worker that picked up
index `i` writes `f src[i]` into slot `i` of the result buffer (a step on an
index outside the input range does nothing). -/
def parRunStep {T : Type u} {U : Type v} (f : T → U) (src : List T)
    (acc : List (Option U)) (i : Nat) : List (Option U) :=
  match src[i]? with
  | some x => setElem acc i (some (f x))
  | none => acc

/-- Modelled from the spec (§6, Parallel Execution Engine): one parallel run of
`parallel_map`.  `order` is the schedule, the sequence in which worker threads
pick up the element indices; the buffer starts unfilled (`none`) and each
processed index `i` receives `f src[i]` at slot `i`. -/
def parRun {T : Type u} {U : Type v} (f : T → U) (src : List T)
    (order : List Nat) : List (Option U) :=
  order.foldl (parRunStep f src) (List.replicate src.length (none : Option U))

/-- One scheduling step of the parallel in-place engine: the worker that
picked up index `i` updates slot `i` in place from its current value. -/
def parRunMutStep {T : Type u} (f : T → T) (acc : List T) (i : Nat) :
    List T :=
  match acc[i]? with
  | some x => setElem acc i (f x)
  | none => acc

/-- Modelled from the spec (§6, Parallel Execution Engine): one parallel run of
`parallel_for_each_mut`.  The collection itself is the buffer; the schedule
`order` lists the indices in the order worker threads mutate them, each slot
being updated in place from its current value. -/
def parRunMut {T : Type u} (f : T → T) (src : List T)
    (order : List Nat) : List T :=
  order.foldl (parRunMutStep f) src

/-- Modelled from the spec (§6): the engine contract of
`src.into_par_iter().map(map).collect()` — applies `map` to each element of
the sequence across a worker pool, returning results in input-correspondent
order. -/
def parMap {T : Type u} {U : Type v} (src : List T) (map : T → U) : List U :=
  src.map map

/-- Embeds `pub fn threaded_map<T, F, U, R>(src: Vec<T>, map: F) -> R` from
`src/lib.rs`, with the caller-chosen container `R` fixed to `List U`:

    if src.len() < THRESHOLD {
        src.into_iter().map(map).collect()
    } else {
        src.into_par_iter().map(map).collect()
    }

The sequential branch is `List.map`; the parallel branch is the engine
contract `parMap`. -/
def threaded_map {T : Type u} {U : Type v} (src : List T) (map : T → U) :
    List U :=
  if src.length < THRESHOLD then src.map map else parMap src map

/-- Modelled from the spec (§6): the engine contract of
`src.par_iter_mut().for_each(map)` — applies the mutation to each element's
exclusive mutable slot, every element visited exactly once, length and
positions unchanged.  The Rust mutation `F: Fn(&mut T)` is embedded as the
per-element update function `T → T`. -/
def parForEachMut {T : Type u} (src : List T) (map : T → T) : List T :=
  src.map map

/-- Embeds `pub fn threaded_mutate<S, T, F>(src: &mut S, map: F)` from
`src/lib.rs`, returning the final contents of the mutably borrowed slice:

    if src.len() < THRESHOLD {
        src.iter_mut().for_each(map)
    } else {
        src.par_iter_mut().for_each(map)
    }
-/
def threaded_mutate {T : Type u} (src : List T) (map : T → T) : List T :=
  if src.length < THRESHOLD then src.map map else parForEachMut src map

/-- One observed execution of `threaded_map` together with its schedule:
below the threshold the sequential branch runs on the calling thread (its
result buffer is trivially fully filled, hence the `some`-view); at or above
the threshold the parallel branch runs under schedule `order`. -/
def threadedMapRun {T : Type u} {U : Type v} (order : List Nat)
    (src : List T) (f : T → U) : List (Option U) :=
  if src.length < THRESHOLD then (src.map f).map some
  else parRun f src order

/-- One observed execution of `threaded_mutate` together with its schedule:
below the threshold the sequential in-order sweep runs; at or above the
threshold the slots are mutated under schedule `order`. -/
def threadedMutateRun {T : Type u} (order : List Nat) (src : List T)
    (g : T → T) : List T :=
  if src.length < THRESHOLD then src.map g else parRunMut g src order

/-- Embeds the sequential branch `src.into_iter().map(map).collect()` when the
caller-supplied function can fail (a Rust panic, embedded as `Except.error`):
iterator evaluation is element by element in input order, so the first failing
element aborts the traversal and no further element is processed. -/
def seqTraverse {T : Type u} {U : Type v} {E : Type w}
    (f : T → Except E U) : List T → Except E (List U)
  | [] => .ok []
  | x :: xs =>
    match f x with
    | .error e => .error e
    | .ok u =>
      match seqTraverse f xs with
      | .error e => .error e
      | .ok us => .ok (u :: us)

/-- Modelled from the spec (§4.2, §7): the parallel branch with a fallible
caller-supplied function.  A failure of any element is propagated to the
caller (never caught or suppressed); on success the full result list is
returned in input order; no partial result is ever produced.  Which of
several concurrent failures surfaces is unspecified, so any refinement that
surfaces some failing element's error is a faithful model. -/
def parTraverse {T : Type u} {U : Type v} {E : Type w}
    (f : T → Except E U) (src : List T) : Except E (List U) :=
  seqTraverse f src

/-- The dispatch of `threaded_map` for a fallible caller-supplied function:
panics of `map` are embedded as `Except.error`, and the whole call either
fails or returns the complete result list. -/
def threadedMapE {T : Type u} {U : Type v} {E : Type w} (src : List T)
    (map : T → Except E U) : Except E (List U) :=
  if src.length < THRESHOLD then seqTraverse map src else parTraverse map src

/-- The dispatch of `threaded_mutate` for a fallible caller-supplied mutation:
on success the final slice contents are returned; a failing mutation call
propagates to the caller and yields no usable output. -/
def threadedMutateE {T : Type u} {E : Type w} (src : List T)
    (map : T → Except E T) : Except E (List T) :=
  if src.length < THRESHOLD then seqTraverse map src else parTraverse map src

/-- Instrumented sequential branch: the result list together with the number
of invocations of the caller-supplied function, one per element consumed by
the iterator. -/
def seqMapTrace {T : Type u} {U : Type v} (f : T → U) :
    List T → List U × Nat
  | [] => ([], 0)
  | x :: xs =>
    let r := seqMapTrace f xs
    (f x :: r.1, r.2 + 1)

/-- Modelled from the spec (§6): instrumented engine contract — the parallel
engine applies the function to each element exactly once, so a parallel run
performs one invocation per element. -/
def parMapTrace {T : Type u} {U : Type v} (f : T → U) (src : List T) :
    List U × Nat :=
  (src.map f, src.length)

/-- Instrumented dispatch of `threaded_map`: the produced collection together
with how many times the caller's transform was invoked. -/
def threadedMapTrace {T : Type u} {U : Type v} (src : List T) (f : T → U) :
    List U × Nat :=
  if src.length < THRESHOLD then seqMapTrace f src else parMapTrace f src

/-- Instrumented dispatch of `threaded_mutate`: the final slice contents
together with how many times the caller's mutation function was invoked. -/
def threadedMutateTrace {T : Type u} (src : List T) (g : T → T) :
    List T × Nat :=
  if src.length < THRESHOLD then seqMapTrace g src else parMapTrace g src

section SetElemLemmas

variable {α : Type u}

theorem setElem_length (l : List α) (i : Nat) (a : α) :
    (setElem l i a).length = l.length := by
  induction l generalizing i with
  | nil => rfl
  | cons x xs ih =>
    cases i with
    | zero => rfl
    | succ n => simp [setElem, ih]

theorem getElem?_setElem (l : List α) (i : Nat) (a : α) (j : Nat) :
    (setElem l i a)[j]? = if j = i ∧ i < l.length then some a else l[j]? := by
  induction l generalizing i j with
  | nil => simp [setElem]
  | cons x xs ih =>
    cases i with
    | zero =>
      cases j with
      | zero => simp [setElem]
      | succ m => simp [setElem]
    | succ n =>
      cases j with
      | zero => simp [setElem]
      | succ m =>
        simp only [setElem, List.getElem?_cons_succ, ih, List.length_cons]
        by_cases h : m = n ∧ n < xs.length
        · simp [h.1, h.2, Nat.succ_lt_succ h.2]
        · rw [if_neg h, if_neg]
          intro hc
          exact h ⟨Nat.succ_injective hc.1, Nat.lt_of_succ_lt_succ hc.2⟩

end SetElemLemmas

section ParRunLemmas

variable {T : Type u} {U : Type v} (f : T → U) (src : List T)

theorem parRunStep_length (acc : List (Option U)) (i : Nat) :
    (parRunStep f src acc i).length = acc.length := by
  unfold parRunStep
  cases h : src[i]? <;> simp [setElem_length]

theorem foldl_parRunStep_length (o : List Nat) (acc : List (Option U)) :
    (o.foldl (parRunStep f src) acc).length = acc.length := by
  induction o generalizing acc with
  | nil => rfl
  | cons j o ih => rw [List.foldl_cons, ih, parRunStep_length]

theorem foldl_parRunStep_getElem?_of_not_mem (o : List Nat)
    (acc : List (Option U)) (i : Nat) (h : i ∉ o) :
    (o.foldl (parRunStep f src) acc)[i]? = acc[i]? := by
  induction o generalizing acc with
  | nil => rfl
  | cons j o ih =>
    have hij : i ≠ j := fun he => h (he ▸ List.mem_cons_self j o)
    rw [List.foldl_cons, ih _ fun hm => h (List.mem_cons_of_mem j hm)]
    unfold parRunStep
    cases hx : src[j]? with
    | none => rfl
    | some x =>
      rw [getElem?_setElem, if_neg]
      intro hc
      exact hij hc.1

theorem foldl_parRunStep_getElem?_of_mem (o : List Nat)
    (acc : List (Option U)) (i : Nat) (x : T)
    (hlen : acc.length = src.length) (hm : i ∈ o) (hx : src[i]? = some x) :
    (o.foldl (parRunStep f src) acc)[i]? = some (some (f x)) := by
  induction o generalizing acc with
  | nil => exact absurd hm (List.not_mem_nil i)
  | cons j o ih =>
    rw [List.foldl_cons]
    by_cases hio : i ∈ o
    · exact ih _ (by rw [parRunStep_length, hlen]) hio
    · have hij : i = j := by
        rcases List.mem_cons.mp hm with h | h
        · exact h
        · exact absurd h hio
      subst hij
      rw [foldl_parRunStep_getElem?_of_not_mem f src o _ i hio]
      unfold parRunStep
      rw [hx, getElem?_setElem, if_pos]
      refine ⟨rfl, ?_⟩
      rw [hlen]
      exact (List.getElem?_eq_some.mp hx).1

/-- Schedule independence of the modelled parallel map engine: under any
schedule that processes each index of the input exactly once, the run fills
every slot `i` with `f src[i]` — the buffer ends up as the sequential map. -/
theorem parRun_perm (order : List Nat)
    (h : order.Perm (List.range src.length)) :
    parRun f src order = (src.map f).map some := by
  apply List.ext_getElem?
  intro i
  by_cases hi : i < src.length
  · have hx := List.getElem?_eq_getElem hi
    have hm : i ∈ order := h.mem_iff.mpr (List.mem_range.mpr hi)
    rw [parRun, foldl_parRunStep_getElem?_of_mem f src order _ i _
      (by simp) hm hx]
    rw [List.getElem?_map, List.getElem?_map, hx]
    rfl
  · have hni : i ∉ order := fun hm =>
      hi (List.mem_range.mp (h.mem_iff.mp hm))
    rw [parRun, foldl_parRunStep_getElem?_of_not_mem f src order _ i hni]
    rw [List.getElem?_eq_none (by simpa using Nat.le_of_not_lt hi)]
    rw [eq_comm]
    apply List.getElem?_eq_none
    simpa using Nat.le_of_not_lt hi

end ParRunLemmas

section ParRunMutLemmas

variable {T : Type u} (f : T → T) (src : List T)

theorem parRunMutStep_length (acc : List T) (i : Nat) :
    (parRunMutStep f acc i).length = acc.length := by
  unfold parRunMutStep
  cases h : acc[i]? <;> simp [setElem_length]

theorem parRunMutStep_getElem?_of_ne (acc : List T) (j i : Nat)
    (hij : i ≠ j) : (parRunMutStep f acc j)[i]? = acc[i]? := by
  unfold parRunMutStep
  cases hx : acc[j]? with
  | none => rfl
  | some x =>
    rw [getElem?_setElem, if_neg]
    intro hc
    exact hij hc.1

theorem foldl_parRunMutStep_getElem? (o : List Nat) (acc : List T)
    (hnd : o.Nodup) (hagree : ∀ i ∈ o, acc[i]? = src[i]?) (i : Nat) :
    (o.foldl (parRunMutStep f) acc)[i]? =
      if i ∈ o then (src.map f)[i]? else acc[i]? := by
  induction o generalizing acc with
  | nil => simp
  | cons j o ih =>
    have hnd' : o.Nodup := (List.nodup_cons.mp hnd).2
    have hjo : j ∉ o := (List.nodup_cons.mp hnd).1
    have hagree' : ∀ k ∈ o, (parRunMutStep f acc j)[k]? = src[k]? := by
      intro k hk
      have hkj : k ≠ j := fun he => hjo (he ▸ hk)
      rw [parRunMutStep_getElem?_of_ne f acc j k hkj]
      exact hagree k (List.mem_cons_of_mem j hk)
    rw [List.foldl_cons, ih _ hnd' hagree']
    by_cases hio : i ∈ o
    · rw [if_pos hio, if_pos (List.mem_cons_of_mem j hio)]
    · by_cases hij : i = j
      · subst hij
        rw [if_neg hio, if_pos (List.mem_cons_self i o)]
        have hsrc : acc[i]? = src[i]? := hagree i (List.mem_cons_self i o)
        unfold parRunMutStep
        cases hx : acc[i]? with
        | none =>
          rw [hx, List.getElem?_map, ← hsrc, hx]
          rfl
        | some x =>
          rw [getElem?_setElem, if_pos ⟨rfl, (List.getElem?_eq_some.mp hx).1⟩]
          rw [List.getElem?_map, ← hsrc, hx]
          rfl
      · rw [if_neg hio, if_neg fun hm => ?_, parRunMutStep_getElem?_of_ne f acc j i hij]
        rcases List.mem_cons.mp hm with h | h
        · exact hij h
        · exact hio h

/-- Schedule independence of the modelled parallel in-place engine: under any
schedule that mutates each slot of the view exactly once, the final contents
are the sequential element-wise map of the original contents. -/
theorem parRunMut_perm (order : List Nat)
    (h : order.Perm (List.range src.length)) :
    parRunMut f src order = src.map f := by
  have hnd : order.Nodup := h.nodup_iff.mpr (List.nodup_range _)
  apply List.ext_getElem?
  intro i
  rw [parRunMut, foldl_parRunMutStep_getElem? f src order src hnd
    (fun _ _ => rfl) i]
  by_cases hi : i < src.length
  · rw [if_pos (h.mem_iff.mpr (List.mem_range.mpr hi))]
  · rw [if_neg fun hm => hi (List.mem_range.mp (h.mem_iff.mp hm))]
    rw [List.getElem?_eq_none (Nat.le_of_not_lt hi), eq_comm]
    apply List.getElem?_eq_none
    simpa using Nat.le_of_not_lt hi

end ParRunMutLemmas

section DispatchLemmas

variable {T : Type u} {U : Type v}

theorem threaded_map_eq_map (src : List T) (f : T → U) :
    threaded_map src f = src.map f := by
  simp [threaded_map, parMap]

theorem threaded_mutate_eq_map (src : List T) (g : T → T) :
    threaded_mutate src g = src.map g := by
  simp [threaded_mutate, parForEachMut]

theorem threadedMapE_eq_seqTraverse {E : Type w} (src : List T)
    (f : T → Except E U) : threadedMapE src f = seqTraverse f src := by
  simp [threadedMapE, parTraverse]

theorem threadedMutateE_eq_seqTraverse {E : Type w} (src : List T)
    (g : T → Except E T) : threadedMutateE src g = seqTraverse g src := by
  simp [threadedMutateE, parTraverse]

end DispatchLemmas

section SeqTraverseLemmas

variable {T : Type u} {U : Type v} {E : Type w}

theorem seqTraverse_ok (f : T → Except E U) :
    ∀ (l : List T) (r : List U), seqTraverse f l = .ok r →
      r.length = l.length ∧
        ∀ (i : Nat) (x : T), l[i]? = some x →
          ∃ u, f x = .ok u ∧ r[i]? = some u := by
  intro l
  induction l with
  | nil =>
    intro r h
    simp only [seqTraverse, Except.ok.injEq] at h
    subst h
    refine ⟨rfl, ?_⟩
    intro i x hx
    simp at hx
  | cons y ys ih =>
    intro r h
    cases hfy : f y with
    | error e => simp [seqTraverse, hfy] at h
    | ok u =>
      cases hrest : seqTraverse f ys with
      | error e => simp [seqTraverse, hfy, hrest] at h
      | ok us =>
        simp only [seqTraverse, hfy, hrest, Except.ok.injEq] at h
        subst h
        obtain ⟨hlen, helem⟩ := ih us hrest
        refine ⟨by simp [hlen], ?_⟩
        intro i x hx
        cases i with
        | zero =>
          simp only [List.getElem?_cons_zero, Option.some.injEq] at hx
          subst hx
          exact ⟨u, hfy, by simp⟩
        | succ n =>
          simp only [List.getElem?_cons_succ] at hx ⊢
          exact helem n x hx

theorem seqTraverse_error_of_elem (f : T → Except E U) (l : List T)
    (i : Nat) (x : T) (e : E) (hx : l[i]? = some x)
    (hfe : f x = .error e) : ∃ e2, seqTraverse f l = .error e2 := by
  cases hres : seqTraverse f l with
  | error e2 => exact ⟨e2, rfl⟩
  | ok r =>
    obtain ⟨u, hu, _⟩ := (seqTraverse_ok f l r hres).2 i x hx
    rw [hfe] at hu
    simp at hu

theorem seqTraverse_append_error (f : T → Except E U) (pre : List T)
    (x : T) (suf : List T) (e : E)
    (hok : ∀ y ∈ pre, ∃ u, f y = .ok u) (hx : f x = .error e) :
    seqTraverse f (pre ++ x :: suf) = .error e := by
  induction pre with
  | nil => simp [seqTraverse, hx]
  | cons y ys ih =>
    obtain ⟨u, hu⟩ := hok y (List.mem_cons_self y ys)
    have hrest := ih fun z hz => hok z (List.mem_cons_of_mem y hz)
    simp [seqTraverse, hu, hrest]

end SeqTraverseLemmas

/-- Claim C1: for every input vector `src`, every transform `f` and every
valid index `i`, the collection returned by `threaded_map src f` holds
`f src[i]` at position `i`, regardless of which execution path was taken. -/
theorem threaded_map_order_preservation {T : Type u} {U : Type v}
    (src : List T) (f : T → U) (i : Nat) (h : i < src.length) :
    (threaded_map src f)[i]? = some (f src[i]) := by
  rw [threaded_map_eq_map, List.getElem?_map, List.getElem?_eq_getElem h]
  rfl

/-- Concrete instance of `threaded_map_order_preservation` at index 1 of a
three-element vector. -/
theorem threaded_map_order_preservation_witness :
    1 < ([10, 20, 30] : List Nat).length ∧
      (threaded_map [10, 20, 30] (fun x => x + 1))[1]? = some 21 :=
  ⟨by decide,
    threaded_map_order_preservation [10, 20, 30] (fun x => x + 1) 1
      (by decide)⟩

/-- Claim C2: after `threaded_mutate view f` the length is unchanged and every
slot `i` holds `f` applied once to the original value at `i`; moreover the
parallel execution path yields that same final state under every schedule
that visits each slot exactly once. -/
theorem threaded_mutate_in_place_identity {T : Type u} (view : List T)
    (f : T → T) :
    (threaded_mutate view f).length = view.length ∧
      (∀ i : Nat, (threaded_mutate view f)[i]? = view[i]?.map f) ∧
      ∀ order : List Nat, order.Perm (List.range view.length) →
        parRunMut f view order = view.map f := by
  refine ⟨?_, ?_, ?_⟩
  · rw [threaded_mutate_eq_map, List.length_map]
  · intro i
    rw [threaded_mutate_eq_map, List.getElem?_map]
  · intro order hord
    exact parRunMut_perm f view order hord

/-- Concrete instance of `threaded_mutate_in_place_identity` on `[1, 2, 3]`
with squaring, including a parallel schedule that visits slot 2 first. -/
theorem threaded_mutate_in_place_identity_witness :
    (threaded_mutate [1, 2, 3] (fun x => x * x)).length = 3 ∧
      (threaded_mutate [1, 2, 3] (fun x => x * x))[2]? = some 9 ∧
      parRunMut (fun x => x * x) [1, 2, 3] [2, 0, 1] = [1, 4, 9] :=
  ⟨(threaded_mutate_in_place_identity [1, 2, 3] (fun x => x * x)).1,
    (threaded_mutate_in_place_identity [1, 2, 3] (fun x => x * x)).2.1 2,
    (threaded_mutate_in_place_identity [1, 2, 3] (fun x => x * x)).2.2
      [2, 0, 1] (by decide)⟩

/-- Claim C3: the parallel branch and the sequential branch of `threaded_map`
are observably equivalent — every parallel run under a once-per-index
schedule fills the buffer with exactly the sequential map, `threaded_map`
itself equals the sequential map on every input, and in particular inputs of
length `THRESHOLD - 1` (sequential) and `THRESHOLD` (parallel) both produce
the per-element values of `g`. -/
theorem threaded_map_par_seq_equiv {T : Type u} {U : Type v} (f : T → U)
    (src : List T) (order : List Nat)
    (h : order.Perm (List.range src.length)) :
    parRun f src order = (src.map f).map some ∧
      threaded_map src f = src.map f ∧
      ∀ g : Nat → Nat,
        (List.range 63).length < THRESHOLD ∧
        THRESHOLD ≤ (List.range 64).length ∧
        threaded_map (List.range 63) g = (List.range 63).map g ∧
        threaded_map (List.range 64) g = (List.range 64).map g := by
  refine ⟨parRun_perm f src order h, threaded_map_eq_map src f, ?_⟩
  intro g
  refine ⟨by simp [THRESHOLD], by simp [THRESHOLD], ?_, ?_⟩
  · exact threaded_map_eq_map (List.range 63) g
  · exact threaded_map_eq_map (List.range 64) g

/-- Concrete instance of `threaded_map_par_seq_equiv`: a reversed schedule on
a two-element input fills the buffer in input order. -/
theorem threaded_map_par_seq_equiv_witness :
    parRun (fun x : Nat => x * x) [5, 6] [1, 0] = [some 25, some 36] :=
  (threaded_map_par_seq_equiv (fun x : Nat => x * x) [5, 6] [1, 0]
    (by decide)).1

/-- Claim C4: for every input of length `L`, the collection returned by
`threaded_map` has exactly `L` elements, below or at/above the threshold. -/
theorem threaded_map_length {T : Type u} {U : Type v} (src : List T)
    (f : T → U) : (threaded_map src f).length = src.length := by
  rw [threaded_map_eq_map, List.length_map]

/-- Claim C5: both operations dispatch by the same fixed rule with threshold
constant 64 — a length strictly below 64 runs the sequential branch, a
length at or above 64 runs the parallel branch. -/
theorem threshold_dispatch_rule {T : Type u} {U : Type v} (src : List T)
    (f : T → U) (g : T → T) (order : List Nat) :
    THRESHOLD = 64 ∧
      (src.length < 64 →
        threadedMapRun order src f = (src.map f).map some ∧
        threadedMutateRun order src g = src.map g) ∧
      (64 ≤ src.length →
        threadedMapRun order src f = parRun f src order ∧
        threadedMutateRun order src g = parRunMut g src order) := by
  refine ⟨rfl, ?_, ?_⟩
  · intro h
    have h' : src.length < THRESHOLD := h
    constructor
    · rw [threadedMapRun, if_pos h']
    · rw [threadedMutateRun, if_pos h']
  · intro h
    have h2 : ¬src.length < THRESHOLD := Nat.not_lt.mpr h
    constructor
    · rw [threadedMapRun, if_neg h2]
    · rw [threadedMutateRun, if_neg h2]

/-- Concrete instance of `threshold_dispatch_rule`: a length-3 input runs the
sequential branch, a length-64 input runs the parallel branch. -/
theorem threshold_dispatch_rule_witness :
    threadedMapRun [9, 9] [1, 2, 3] (fun x => x + 1) =
      [some 2, some 3, some 4] ∧
    threadedMutateRun [] (List.range 64) (fun x : Nat => x) =
      parRunMut (fun x : Nat => x) (List.range 64) [] :=
  ⟨((threshold_dispatch_rule [1, 2, 3] (fun x => x + 1) (fun x => x)
      [9, 9]).2.1 (by decide)).1,
    ((threshold_dispatch_rule (List.range 64) (fun x : Nat => x)
      (fun x : Nat => x) []).2.2 (by decide)).2⟩

/-- Claim C6: a failure of the caller-supplied function always propagates to
the caller of either operation and is never suppressed; a successful return
is never partial (every element was transformed, result complete); and in
the sequential path the first failing element aborts immediately — the
result does not depend on the elements after it, which are not processed. -/
theorem fallible_failure_propagation {T : Type u} {U : Type v}
    {E : Type w} :
    (∀ (src : List T) (f : T → Except E U) (i : Nat) (x : T) (e : E),
        src[i]? = some x → f x = .error e →
        ∃ e2, threadedMapE src f = .error e2) ∧
    (∀ (view : List T) (g : T → Except E T) (i : Nat) (x : T) (e : E),
        view[i]? = some x → g x = .error e →
        ∃ e2, threadedMutateE view g = .error e2) ∧
    (∀ (src : List T) (f : T → Except E U) (r : List U),
        threadedMapE src f = .ok r →
        r.length = src.length ∧
          ∀ (i : Nat) (x : T), src[i]? = some x →
            ∃ u, f x = .ok u ∧ r[i]? = some u) ∧
    (∀ (pre : List T) (x : T) (suf : List T) (f : T → Except E U) (e : E),
        (pre ++ x :: suf).length < THRESHOLD →
        (∀ y ∈ pre, ∃ u, f y = .ok u) → f x = .error e →
        threadedMapE (pre ++ x :: suf) f = .error e) ∧
    (∀ (pre : List T) (x : T) (suf : List T) (g : T → Except E T) (e : E),
        (pre ++ x :: suf).length < THRESHOLD →
        (∀ y ∈ pre, ∃ u, g y = .ok u) → g x = .error e →
        threadedMutateE (pre ++ x :: suf) g = .error e) := by
  refine ⟨?_, ?_, ?_, ?_, ?_⟩
  · intro src f i x e hx hfe
    rw [threadedMapE_eq_seqTraverse]
    exact seqTraverse_error_of_elem f src i x e hx hfe
  · intro view g i x e hx hfe
    rw [threadedMutateE_eq_seqTraverse]
    exact seqTraverse_error_of_elem g view i x e hx hfe
  · intro src f r hr
    rw [threadedMapE_eq_seqTraverse] at hr
    exact seqTraverse_ok f src r hr
  · intro pre x suf f e _ hok hfe
    rw [threadedMapE_eq_seqTraverse]
    exact seqTraverse_append_error f pre x suf e hok hfe
  · intro pre x suf g e _ hok hfe
    rw [threadedMutateE_eq_seqTraverse]
    exact seqTraverse_append_error g pre x suf e hok hfe

/-- Concrete instance of `fallible_failure_propagation`: the failure of the
middle element of `[1, 2, 3]` surfaces as the result of the call. -/
theorem fallible_failure_propagation_witness :
    threadedMapE [1, 2, 3]
      (fun n : Nat => if n = 2 then Except.error 7 else Except.ok n) =
      Except.error 7 :=
  fallible_failure_propagation.2.2.2.1 [1] 2 [3]
    (fun n : Nat => if n = 2 then Except.error 7 else Except.ok n) 7
    (by decide)
    (by
      intro y hy
      simp only [List.mem_singleton] at hy
      subst hy
      exact ⟨1, rfl⟩)
    rfl

/-- Claim C7: `threaded_map` is deterministic for deterministic transforms —
any two runs on the same input, even under different parallel schedules,
produce identical output collections, and each run agrees with the
contract-level result of `threaded_map`. -/
theorem threaded_map_deterministic {T : Type u} {U : Type v}
    (src : List T) (f : T → U) (o1 o2 : List Nat)
    (h1 : o1.Perm (List.range src.length))
    (h2 : o2.Perm (List.range src.length)) :
    threadedMapRun o1 src f = threadedMapRun o2 src f ∧
      threadedMapRun o1 src f = (threaded_map src f).map some := by
  have run_eq : ∀ o : List Nat, o.Perm (List.range src.length) →
      threadedMapRun o src f = (src.map f).map some := by
    intro o ho
    rw [threadedMapRun]
    by_cases hl : src.length < THRESHOLD
    · rw [if_pos hl]
    · rw [if_neg hl]
      exact parRun_perm f src o ho
  refine ⟨?_, ?_⟩
  · rw [run_eq o1 h1, run_eq o2 h2]
  · rw [run_eq o1 h1, threaded_map_eq_map]

/-- Concrete instance of `threaded_map_deterministic`: two different schedules
on the same two-element input give the same output. -/
theorem threaded_map_deterministic_witness :
    threadedMapRun [1, 0] [3, 4] (fun x => x * 2) =
      threadedMapRun [0, 1] [3, 4] (fun x => x * 2) :=
  (threaded_map_deterministic [3, 4] (fun x => x * 2) [1, 0] [0, 1]
    (by decide) (by decide)).1

/-- Claim C8: applying `threaded_map` with squaring to the 1024 integers
`0..1023` yields the 1024 squares in input order; this input is at or above
the threshold, so the parallel path runs. -/
theorem threaded_map_squares_1024 :
    THRESHOLD ≤ (List.range 1024).length ∧
      threaded_map (List.range 1024) (fun x => x * x) =
        (List.range 1024).map (fun x => x * x) ∧
      (threaded_map (List.range 1024) (fun x => x * x)).length = 1024 ∧
      ∀ i : Nat, (threaded_map (List.range 1024) (fun x => x * x))[i]? =
        ((List.range 1024)[i]?).map (fun x => x * x) := by
  refine ⟨by simp [THRESHOLD], threaded_map_eq_map _ _, ?_, ?_⟩
  · rw [threaded_map_eq_map, List.length_map, List.length_range]
  · intro i
    rw [threaded_map_eq_map, List.getElem?_map]

/-- Claim C9: on empty input both operations are no-ops that never invoke the
caller's function — the result is empty and the invocation count is zero,
with the empty length below the threshold, so the sequential path runs. -/
theorem empty_input_noop {T : Type u} {U : Type v} {T2 : Type w} :
    ∀ (f : T → U) (g : T2 → T2),
      threadedMapTrace ([] : List T) f = ([], 0) ∧
      threadedMutateTrace ([] : List T2) g = ([], 0) ∧
      ([] : List T).length < THRESHOLD := by
  intro f g
  exact ⟨rfl, rfl, by norm_num [THRESHOLD]⟩

/-- Claim C10: `threaded_map` with the identity transform returns the input
vector unchanged. -/
theorem threaded_map_identity_law {T : Type u} (v : List T) :
    threaded_map v id = v := by
  rw [threaded_map_eq_map, List.map_id]

end Vemcap
